import Mathlib

/-!
A shallow embedding of the versioned key-value store in src/src/main.rs.

The Rust program stores a current mapping in a HashMap<String, String>
(field elem) and a history of snapshots in a Vec<HashMap<String, String>>
(field vec).  We model the HashMap value as an association list holding at
most one entry per key; Map.Wf states that key uniqueness, which every
value a HashMap can hold satisfies, and which Map.insert, Map.remove and
the empty map preserve.  Rust clone on these owned values is a value copy,
so in this value-semantics embedding it is the identity.

Machine integers: version in Element.rollback is a usize, and the source
computes version - 1.  For version = 0 that subtraction underflows, which
in Rust panics when overflow checks are on (the default dev and test
profiles) and wraps modulo 2^64 when they are off.  We model the checked
subtraction: rollback returns none exactly when the source panics under
the default profile.
-/

abbrev Map : Type := List (String × String)

/-- HashMap::get — the value stored for the key, if any. -/
def Map.get : Map → String → Option String
  | [], _ => none
  | (k', v') :: rest, k => if k' = k then some v' else Map.get rest k

/-- HashMap::insert — store the value for the key, overwriting any
previous value. -/
def Map.insert : Map → String → String → Map
  | [], k, v => [(k, v)]
  | (k', v') :: rest, k, v =>
    if k' = k then (k, v) :: rest else (k', v') :: Map.insert rest k v

/-- HashMap::remove — delete the entry for the key, if present. -/
def Map.remove : Map → String → Map
  | [], _ => []
  | (k', v') :: rest, k => if k' = k then rest else (k', v') :: Map.remove rest k

/-- HashMap::len — the number of entries. -/
def Map.len (m : Map) : Nat := m.length

/-- The representation invariant of a HashMap value: each key occurs at
most once. -/
def Map.Wf (m : Map) : Prop := (m.map Prod.fst).Nodup

instance (m : Map) : Decidable (Map.Wf m) := by
  unfold Map.Wf; infer_instance

/-- Checked usize subtraction, as performed by a Rust debug build:
none models the overflow panic. -/
def usizeCheckedSub (a b : Nat) : Option Nat :=
  if b ≤ a then some (a - b) else none

/-- struct Element { elem: Map, vec: Vec<Map> } -/
structure Element where
  elem : Map
  vec : List Map
deriving DecidableEq

/-- Element::new -/
def Element.new : Element := { elem := [], vec := [] }

/-- Element::insert -/
def Element.insert (st : Element) (key value : String) : Element :=
  { st with elem := Map.insert st.elem key value }

/-- Element::remove -/
def Element.remove (st : Element) (key : String) : Element :=
  { st with elem := Map.remove st.elem key }

/-- Element::get -/
def Element.get (st : Element) (key : String) : Option String :=
  Map.get st.elem key

/-- Element::len -/
def Element.len (st : Element) : Nat := Map.len st.elem

/-- Element::vec_len — the spec calls this historyLength(). -/
def Element.vec_len (st : Element) : Nat := st.vec.length

/-- Element::checkpoint — self.vec.push(self.elem.clone()) -/
def Element.checkpoint (st : Element) : Element :=
  { st with vec := st.vec ++ [st.elem] }

/-- Element::rollback — match self.vec.get(version - 1): on Some the
snapshot replaces elem, on None nothing happens.  The usize subtraction
version - 1 is checked: the result is none exactly when a debug build
panics (version = 0). -/
def Element.rollback (st : Element) (version : Nat) : Option Element :=
  match usizeCheckedSub version 1 with
  | none => none
  | some i =>
    match st.vec.get? i with
    | some v => some { st with elem := v }
    | none => some st

/-- Element::prune — remember vec.last().cloned(), clear the vector, and
push the remembered snapshot back if there was one. -/
def Element.prune (st : Element) : Element :=
  match st.vec.getLast? with
  | some el => { st with vec := [el] }
  | none => { st with vec := [] }

/-- A single mutation of the current mapping: a call to Element::insert
or Element::remove. -/
inductive MapOp where
  | ins (key value : String)
  | rem (key : String)
deriving DecidableEq

/-- Run one mutation on the store. -/
def Element.applyOp (st : Element) : MapOp → Element
  | MapOp.ins k v => st.insert k v
  | MapOp.rem k => st.remove k

/-- Run a sequence of insert and remove calls on the store. -/
def Element.applyOps (st : Element) (ops : List MapOp) : Element :=
  ops.foldl Element.applyOp st

/-- The state the fn main of the program has built when it reaches its
final statement, the call element.rollback(0): new, insert "key" "value",
get "key", remove "key", checkpoint.  (Display and get have no effect on
the state.) -/
def mainBeforeRollback : Element :=
  (((Element.new.insert "key" "value").remove "key").checkpoint)

/-! ## Helper lemmas about the map operations -/

theorem Map.get_insert_self (m : Map) (k v : String) :
    Map.get (Map.insert m k v) k = some v := by
  induction m with
  | nil => simp [Map.insert, Map.get]
  | cons hd tl ih =>
    obtain ⟨k', v'⟩ := hd
    by_cases hk : k' = k
    · simp [Map.insert, hk, Map.get]
    · simp [Map.insert, hk, Map.get, ih]

theorem Map.len_insert (m : Map) (k v : String) :
    Map.len (Map.insert m k v) =
      if (Map.get m k).isSome then Map.len m else Map.len m + 1 := by
  induction m with
  | nil => simp [Map.insert, Map.get, Map.len]
  | cons hd tl ih =>
    obtain ⟨k', v'⟩ := hd
    by_cases hk : k' = k
    · simp [Map.insert, hk, Map.get, Map.len]
    · cases hg : Map.get tl k with
      | none => simp [Map.insert, hk, Map.get, Map.len, hg] at ih ⊢; omega
      | some w => simp [Map.insert, hk, Map.get, Map.len, hg] at ih ⊢; omega

theorem Map.get_eq_none (m : Map) (k : String) (h : k ∉ m.map Prod.fst) :
    Map.get m k = none := by
  induction m with
  | nil => rfl
  | cons hd tl ih =>
    obtain ⟨k', v'⟩ := hd
    simp only [List.map_cons, List.mem_cons] at h
    push_neg at h
    simp [Map.get, Ne.symm h.1, ih h.2]

theorem Map.get_remove_self (m : Map) (k : String) (h : Map.Wf m) :
    Map.get (Map.remove m k) k = none := by
  induction m with
  | nil => rfl
  | cons hd tl ih =>
    obtain ⟨k', v'⟩ := hd
    rw [Map.Wf, List.map_cons, List.nodup_cons] at h
    by_cases hk : k' = k
    · subst hk
      simpa [Map.remove] using Map.get_eq_none tl k' h.1
    · simp only [Map.remove, hk, if_false]
      simp [Map.get, hk, ih h.2]

theorem Map.remove_of_get_none (m : Map) (k : String) (h : Map.get m k = none) :
    Map.remove m k = m := by
  induction m with
  | nil => rfl
  | cons hd tl ih =>
    obtain ⟨k', v'⟩ := hd
    by_cases hk : k' = k
    · simp [Map.get, hk] at h
    · simp [Map.get, hk] at h
      simp [Map.remove, hk, ih h]

theorem Map.mem_keys_insert (m : Map) (k v a : String) :
    a ∈ (Map.insert m k v).map Prod.fst ↔ a = k ∨ a ∈ m.map Prod.fst := by
  induction m with
  | nil => simp [Map.insert]
  | cons hd tl ih =>
    obtain ⟨k', v'⟩ := hd
    by_cases hk : k' = k
    · subst hk; simp [Map.insert]
    · simp [Map.insert, hk, ih]; tauto

theorem Map.mem_keys_remove (m : Map) (k a : String)
    (h : a ∈ (Map.remove m k).map Prod.fst) : a ∈ m.map Prod.fst := by
  induction m with
  | nil => simp [Map.remove] at h
  | cons hd tl ih =>
    obtain ⟨k', v'⟩ := hd
    by_cases hk : k' = k
    · simp only [Map.remove, hk, if_true] at h
      simp [h]
    · simp only [Map.remove, hk, if_false, List.map_cons, List.mem_cons] at h ⊢
      tauto

theorem Map.Wf_insert (m : Map) (k v : String) (h : Map.Wf m) :
    Map.Wf (Map.insert m k v) := by
  induction m with
  | nil => simp [Map.Wf, Map.insert]
  | cons hd tl ih =>
    obtain ⟨k', v'⟩ := hd
    rw [Map.Wf, List.map_cons, List.nodup_cons] at h
    by_cases hk : k' = k
    · subst hk
      rw [Map.Wf, Map.insert, if_pos rfl, List.map_cons, List.nodup_cons]
      exact h
    · rw [Map.Wf, Map.insert, if_neg hk, List.map_cons, List.nodup_cons]
      refine ⟨fun hmem => ?_, ih h.2⟩
      rcases (Map.mem_keys_insert tl k v k').mp hmem with rfl | hmem'
      · exact hk rfl
      · exact h.1 hmem'

theorem Map.Wf_remove (m : Map) (k : String) (h : Map.Wf m) :
    Map.Wf (Map.remove m k) := by
  induction m with
  | nil => simp [Map.Wf, Map.remove]
  | cons hd tl ih =>
    obtain ⟨k', v'⟩ := hd
    rw [Map.Wf, List.map_cons, List.nodup_cons] at h
    by_cases hk : k' = k
    · rw [Map.remove, if_pos hk]
      exact h.2
    · rw [Map.Wf, Map.remove, if_neg hk, List.map_cons, List.nodup_cons]
      exact ⟨fun hmem => h.1 (Map.mem_keys_remove tl k k' hmem), ih h.2⟩

theorem Element.applyOp_vec (st : Element) (op : MapOp) :
    (st.applyOp op).vec = st.vec := by
  cases op <;> rfl

theorem Element.applyOps_vec (st : Element) (ops : List MapOp) :
    (st.applyOps ops).vec = st.vec := by
  induction ops generalizing st with
  | nil => rfl
  | cons op rest ih =>
    show ((st.applyOp op).applyOps rest).vec = st.vec
    rw [ih, Element.applyOp_vec]

/-! ## Claim theorems -/

/-- C1: the spec says rollback with version 0 is a silent no-op, but the
source computes version - 1 on a usize, which underflows for version 0:
under the default (overflow-checking) build profile every call
rollback(0) panics, in particular the one fn main itself performs after
its checkpoint.  (With overflow checks off the index wraps to 2^64 - 1,
Vec::get returns None and the call is a no-op, as the spec describes;
versions greater than historyLength() are silent no-ops in every build,
see rollback_in_range_restores and checkpoint_rollback_roundtrip.) -/
theorem rollback_zero_underflow_panics :
    (∀ st : Element, st.rollback 0 = none) ∧
      mainBeforeRollback.rollback 0 = none :=
  ⟨fun _ => rfl, rfl⟩

/-- C2: for 1 ≤ version ≤ historyLength(), rollback(version) sets the
current mapping to the snapshot stored at the 1-based position version in
the history (position version corresponds to 0-based index version - 1,
so version 1 is the oldest snapshot and version historyLength() the most
recent) and leaves the history unmodified. -/
theorem rollback_in_range_restores (st : Element) (version : Nat)
    (h1 : 1 ≤ version) (h2 : version ≤ st.vec_len) :
    ∃ m, st.vec.get? (version - 1) = some m ∧
      st.rollback version = some { elem := m, vec := st.vec } := by
  have hlt : version - 1 < st.vec.length := by
    rw [Element.vec_len] at h2; omega
  refine ⟨st.vec.get ⟨version - 1, hlt⟩, List.get?_eq_get hlt, ?_⟩
  simp only [Element.rollback, usizeCheckedSub, if_pos h1, List.get?_eq_get hlt]

theorem rollback_in_range_restores_witness :
    1 ≤ 1 ∧ 1 ≤ (Element.mk [] [[("a", "b")]]).vec_len ∧
      ∃ m, (Element.mk [] [[("a", "b")]]).vec.get? 0 = some m ∧
        (Element.mk [] [[("a", "b")]]).rollback 1 =
          some { elem := m, vec := [[("a", "b")]] } :=
  ⟨Nat.le_refl 1, Nat.le_refl 1,
    rollback_in_range_restores (Element.mk [] [[("a", "b")]]) 1
      (Nat.le_refl 1) (Nat.le_refl 1)⟩

/-- C3: checkpoint() immediately followed by rollback(historyLength())
leaves the current mapping observably identical (every key maps to the
same optional value, hence also the same key set) to its state just
before the checkpoint. -/
theorem checkpoint_rollback_roundtrip (st : Element) :
    ∃ st', st.checkpoint.rollback st.checkpoint.vec_len = some st' ∧
      ∀ k, st'.get k = st.get k := by
  refine ⟨{ elem := st.elem, vec := st.vec ++ [st.elem] }, ?_, fun k => rfl⟩
  have hlen : st.checkpoint.vec_len = st.vec.length + 1 := by
    simp [Element.checkpoint, Element.vec_len]
  have h1 : 1 ≤ st.vec.length + 1 := Nat.succ_le_succ (Nat.zero_le _)
  rw [hlen]
  simp only [Element.checkpoint, Element.rollback, usizeCheckedSub, if_pos h1,
    Nat.add_sub_cancel, List.get?_concat_length]

/-- C4: checkpoint() always succeeds, appends a copy of the current
mapping to the end of the history (so historyLength() grows by exactly 1
and every previously stored snapshot is unchanged in place), and leaves
the current mapping itself unchanged. -/
theorem checkpoint_appends (st : Element) :
    st.checkpoint.vec_len = st.vec_len + 1 ∧
      st.checkpoint.vec = st.vec ++ [st.elem] ∧
      st.checkpoint.elem = st.elem :=
  ⟨by rw [Element.checkpoint, Element.vec_len, Element.vec_len, List.length_append]; rfl,
    rfl, rfl⟩

/-- C5: prune() reduces historyLength() to min 1 of its previous value,
never touches the current mapping, and when the history was non-empty the
single surviving snapshot is the most recently appended one, so
rollback(1) afterwards restores exactly that snapshot. -/
theorem prune_keeps_last (st : Element) :
    st.prune.vec_len = min 1 st.vec_len ∧
      st.prune.elem = st.elem ∧
      ∀ m, st.vec.getLast? = some m →
        st.prune.vec = [m] ∧
        st.prune.rollback 1 = some { elem := m, vec := [m] } := by
  obtain ⟨e, vl⟩ := st
  rcases List.eq_nil_or_concat vl with h | ⟨L, b, h⟩
  · subst h
    exact ⟨rfl, rfl, fun m hm => by simp at hm⟩
  · rw [List.concat_eq_append] at h
    subst h
    refine ⟨?_, ?_, ?_⟩
    · show (Element.prune ⟨e, L ++ [b]⟩).vec_len = _
      rw [Element.prune]
      simp [List.getLast?_concat, Element.vec_len]
    · show (Element.prune ⟨e, L ++ [b]⟩).elem = e
      rw [Element.prune]
      simp [List.getLast?_concat]
    · intro m hm
      rw [List.getLast?_concat] at hm
      cases hm
      constructor
      · show (Element.prune ⟨e, L ++ [b]⟩).vec = [b]
        rw [Element.prune]
        simp [List.getLast?_concat]
      · show (Element.prune ⟨e, L ++ [b]⟩).rollback 1 = _
        rw [Element.prune]
        simp only [List.getLast?_concat]
        rfl

theorem prune_keeps_last_witness :
    (Element.mk [] [[("a", "b")], [("c", "d")]]).prune.vec_len =
        min 1 (Element.mk [] [[("a", "b")], [("c", "d")]]).vec_len ∧
      (Element.mk [] [[("a", "b")], [("c", "d")]]).prune.elem = [] ∧
      (Element.mk [] [[("a", "b")], [("c", "d")]]).prune.vec = [[("c", "d")]] ∧
      (Element.mk [] [[("a", "b")], [("c", "d")]]).prune.rollback 1 =
        some { elem := [("c", "d")], vec := [[("c", "d")]] } := by
  have h := prune_keeps_last (Element.mk [] [[("a", "b")], [("c", "d")]])
  have h3 := h.2.2 [("c", "d")] rfl
  exact ⟨h.1, h.2.1, h3.1, h3.2⟩

/-- C6: after insert(k, v), get(k) returns v — insert overwrites any
previous value for the key — and the history is unchanged by the
insert. -/
theorem insert_then_get (st : Element) (k v : String) :
    (st.insert k v).get k = some v ∧ (st.insert k v).vec = st.vec :=
  ⟨Map.get_insert_self st.elem k v, rfl⟩

/-- C7: after remove(k), get(k) returns none, whether or not the key was
present (the hypothesis is the HashMap representation invariant: each key
occurs at most once in the current mapping); remove on an absent key is a
silent no-op that leaves the whole state unchanged, and remove never
modifies the history. -/
theorem remove_then_get (st : Element) (k : String) (h : Map.Wf st.elem) :
    (st.remove k).get k = none ∧ (st.remove k).vec = st.vec ∧
      (st.get k = none → st.remove k = st) := by
  refine ⟨Map.get_remove_self st.elem k h, rfl, fun hnone => ?_⟩
  obtain ⟨e, vl⟩ := st
  rw [Element.remove]
  rw [Map.remove_of_get_none e k hnone]

theorem remove_then_get_witness :
    Map.Wf (Element.mk [("a", "b")] []).elem ∧
      ((Element.mk [("a", "b")] []).remove "x").get "x" = none ∧
      ((Element.mk [("a", "b")] []).remove "x").vec = [] ∧
      (Element.mk [("a", "b")] []).remove "x" = Element.mk [("a", "b")] [] := by
  have h := remove_then_get (Element.mk [("a", "b")] []) "x" (by decide)
  exact ⟨by decide, h.1, h.2.1, h.2.2 (by decide)⟩

/-- C8: after a checkpoint, no sequence of insert and remove calls on the
current mapping changes any stored snapshot: the history still equals the
old history extended with a snapshot equal to the value the current
mapping had at the moment of the checkpoint. -/
theorem mutations_preserve_snapshots (st : Element) (ops : List MapOp) :
    (st.checkpoint.applyOps ops).vec = st.vec ++ [st.elem] := by
  rw [Element.applyOps_vec]; rfl

/-- C9: prune is idempotent — calling prune() twice in a row yields
exactly the same state (same current mapping, same history) as calling
it once. -/
theorem prune_idempotent (st : Element) : st.prune.prune = st.prune := by
  obtain ⟨e, vl⟩ := st
  rcases List.eq_nil_or_concat vl with h | ⟨L, b, h⟩
  · subst h; rfl
  · rw [List.concat_eq_append] at h
    subst h
    show Element.prune (Element.prune ⟨e, L ++ [b]⟩) = _
    have hin : Element.prune ⟨e, L ++ [b]⟩ = ⟨e, [b]⟩ := by
      rw [Element.prune]
      simp [List.getLast?_concat]
    rw [hin]
    rfl

/-- C10: insert(k, v) leaves size() unchanged when the key is already
present in the current mapping and increases size() by exactly 1 when it
is absent; in particular insert never decreases size(). -/
theorem insert_len_change (st : Element) (k v : String) :
    (st.insert k v).len =
        (if (st.get k).isSome then st.len else st.len + 1) ∧
      st.len ≤ (st.insert k v).len := by
  have h := Map.len_insert st.elem k v
  refine ⟨h, ?_⟩
  show Map.len st.elem ≤ Map.len (Map.insert st.elem k v)
  rw [h]
  cases (Map.get st.elem k).isSome <;> simp
